import Mathlib

/-!
Verification of the `flow_lang` parsing module
(`src/flow_lang/src/parsing/mod.rs`), a recursive-descent parser for a
minimal Lisp-family expression language built from `nom` combinators.

The embedding works on `List Char` inputs.  Every parser is a total
function `Input → Option (Input × α)`: `some (rest, v)` models nom's
`Ok((rest, v))` and `none` models a non-match (`Err`), which in nom
consumes no input.  The recursive expression parser is defined with a
fuel parameter (`parseE`); `parse_expression` instantiates the fuel at
`input.length + 1`, which is always sufficient, and a congruence lemma
(`parseE_congr`) shows the result is fuel-independent from that point on.
`many0` carries nom 7's built-in check that the inner parser consumed
input (nom's `ErrorKind::Many0` guard).
-/

namespace FlowLang

abbrev Input := List Char

/-! ### Character classes used by the nom combinators (ASCII) -/

/-- `nom::character::complete::multispace0/1` character class:
space, tab, carriage return, line feed. -/
def isWsC (c : Char) : Bool :=
  c == ' ' || c == '\t' || c == '\r' || c == '\n'

/-- `digit1` character class: ASCII `0`-`9`. -/
def isDigitC (c : Char) : Bool :=
  decide (48 ≤ c.toNat) && decide (c.toNat ≤ 57)

/-- `alpha1` character class: ASCII `A`-`Z`, `a`-`z`. -/
def isAlphaC (c : Char) : Bool :=
  (decide (65 ≤ c.toNat) && decide (c.toNat ≤ 90)) ||
  (decide (97 ≤ c.toNat) && decide (c.toNat ≤ 122))

/-- `alphanumeric1` character class. -/
def isAlnumC (c : Char) : Bool := isAlphaC c || isDigitC c

/-- The operator set of `parse_symbol`: `one_of("><+-*/%=")`. -/
def isOpChar (c : Char) : Bool :=
  c == '>' || c == '<' || c == '+' || c == '-' ||
  c == '*' || c == '/' || c == '%' || c == '='

/-- Characters allowed inside an identifier after its first character:
`alt((alphanumeric1, tag("_")))`. -/
def isIdentChar (c : Char) : Bool := isAlnumC c || c == '_'

/-- `multispace0`: drop the maximal run of leading whitespace. -/
def stripWs (input : Input) : Input := input.dropWhile isWsC

/-- `nom::bytes::complete::tag`: does `input` start with the literal `t`? -/
def tagStarts : List Char → Input → Bool
  | [], _ => true
  | _ :: _, [] => false
  | t :: ts, c :: cs => t == c && tagStarts ts cs

/-! ### The value model (`LispVal`, `LispType`) -/

/-- `LispVal` from `parsing/mod.rs`: the closed tagged-variant value model.
`Number` carries Rust's `i64`, modelled as `Int`. -/
inductive LispVal where
  | Symbol (s : List Char)
  | String (s : List Char)
  | List (vs : List LispVal)
  | Number (n : Int)
  | Unevaluated (v : LispVal)
  | Void

/-- `LispType` from `parsing/mod.rs`. -/
inductive LispType where
  | Any
  | Symbol
  | String
  | List
  | Number
  | Void
deriving DecidableEq

/-- `LispVal::as_number`. -/
def as_number : LispVal → Option Int
  | .Number n => some n
  | _ => none

/-- `LispVal::as_string`. -/
def as_string : LispVal → Option (List Char)
  | .String s => some s
  | _ => none

/-- `LispVal::as_list`. -/
def as_list : LispVal → Option (List LispVal)
  | .List vs => some vs
  | _ => none

/-- `LispVal::to_type`: `Unevaluated` reports its child's type. -/
def to_type : LispVal → LispType
  | .Void => .Void
  | .Symbol _ => .Symbol
  | .Number _ => .Number
  | .String _ => .String
  | .List _ => .List
  | .Unevaluated v => to_type v

/-! ### Rendering (`impl Display for LispVal`) -/

/-- One decimal digit as a character (`d` is assumed `< 10`). -/
def digitChar (d : Nat) : Char :=
  match d with
  | 0 => '0' | 1 => '1' | 2 => '2' | 3 => '3' | 4 => '4'
  | 5 => '5' | 6 => '6' | 7 => '7' | 8 => '8' | _ => '9'

/-- Base-10 rendering of a natural number, as Rust's `{}` formatting does. -/
def natChars (n : Nat) : List Char :=
  if n = 0 then ['0'] else (Nat.digits 10 n).reverse.map digitChar

/-- Base-10 rendering of a signed integer (Rust `i64` `Display`). -/
def intChars (n : Int) : List Char :=
  if n < 0 then '-' :: natChars n.natAbs else natChars n.toNat

mutual

/-- `impl Display for LispVal`: `Void` renders as nothing, atoms as their
literal text, `Unevaluated` as `'` plus the rendered child, `List` as the
space-joined rendered elements in parentheses. -/
def render : LispVal → List Char
  | .Void => []
  | .Symbol s => s
  | .Number n => intChars n
  | .String s => s
  | .Unevaluated v => '\'' :: render v
  | .List vs => '(' :: renderJoin vs ++ [')']

/-- `values.iter().map(ToString::to_string).join(" ")`. -/
def renderJoin : List LispVal → List Char
  | [] => []
  | [v] => render v
  | v :: vs => render v ++ ' ' :: renderJoin vs

end

/-! ### The leaf parsers -/

/-- `parse_symbol`: either a maximal nonempty run of operator characters
(`many1(one_of("><+-*/%="))`), or an identifier: a first character that is
a letter or underscore, then alphanumeric/underscore characters, then an
optional single trailing `?`. -/
def parse_symbol (input : Input) : Option (Input × List Char) :=
  match input.takeWhile isOpChar with
  | c :: cs => some (input.dropWhile isOpChar, c :: cs)
  | [] =>
    match input with
    | c :: _ =>
      if isAlphaC c || c == '_' then
        let body := input.takeWhile isIdentChar
        match input.dropWhile isIdentChar with
        | '?' :: r2 => some (r2, body ++ ['?'])
        | other => some (other, body)
      else none
    | [] => none

/-- `i64::MAX`. -/
def I64_MAX : Nat := 2 ^ 63 - 1

/-- The numeric value of a run of ASCII digit characters, as
`str::parse::<i64>` computes it. -/
def valOfDigits (ds : List Char) : Nat :=
  ds.foldl (fun a c => 10 * a + (c.toNat - 48)) 0

/-- `parse_number`: `tag("true")` ↦ 1, `tag("false")` ↦ 0, or
`map_res(recognize(digit1), str::parse::<i64>)` — a nonempty maximal digit
run, failing (as a plain non-match) when the value overflows `i64`. -/
def parse_number (input : Input) : Option (Input × Int) :=
  if tagStarts ['t', 'r', 'u', 'e'] input then some (input.drop 4, 1)
  else if tagStarts ['f', 'a', 'l', 's', 'e'] input then some (input.drop 5, 0)
  else
    match input.takeWhile isDigitC with
    | [] => none
    | c :: cs =>
      if valOfDigits (c :: cs) ≤ I64_MAX then
        some (input.dropWhile isDigitC, (valOfDigits (c :: cs) : Int))
      else none

/-- Modelled from the spec: the body of the string-literal sub-parser
(`src/parsing/string.rs`, not part of the sources under review): the
characters up to the closing `"` delimiter with backslash escapes
resolved; an unterminated literal fails. -/
def parse_string_body : Input → Option (Input × List Char)
  | [] => none
  | '"' :: rest => some (rest, [])
  | '\\' :: e :: rest =>
    (parse_string_body rest).map fun p =>
      (p.1, (if e == 'n' then '\n' else if e == 't' then '\t'
             else if e == 'r' then '\r' else e) :: p.2)
  | c :: rest => (parse_string_body rest).map fun p => (p.1, c :: p.2)

/-- Modelled from the spec: the string-literal sub-parser (external
collaborator, `src/parsing/string.rs`): positioned at a quoted-string
token it consumes the opening `"` delimiter, the decoded content, and the
closing delimiter; on any other input it fails without consuming input. -/
def parse_string (input : Input) : Option (Input × List Char) :=
  match input with
  | c :: rest => if c = '"' then parse_string_body rest else none
  | [] => none

/-! ### `many0` and the recursive expression parser -/

/-- nom 7's `many0`: repeat `p` until it fails, collecting results.  A
successful inner parse that consumes no input is an error
(`ErrorKind::Many0`), which is what makes the loop well-founded; the
`fuel` parameter is an upper bound on the number of iterations and is
irrelevant whenever `input.length < fuel` (`many0_fuel_congr`). -/
def many0 {α : Type} (p : Input → Option (Input × α)) :
    Nat → Input → Option (Input × List α)
  | 0, _ => none
  | fuel + 1, input =>
    match p input with
    | none => some (input, [])
    | some (r, v) =>
      if r.length < input.length then
        match many0 p fuel r with
        | some (r2, vs) => some (r2, v :: vs)
        | none => none
      else none

/-- The fueled expression parser.  One unit of fuel is spent per
recursion level; `parse_expression` supplies `input.length + 1`, which is
always enough (`parseE_congr`).  The body is exactly the source's
`parse_expression`: skip leading whitespace, then try, in order,
quote (`parse_unevaluated`), `parse_number`, `parse_symbol`,
`parse_string`, `parse_list`, first match wins. -/
def parseE : Nat → Input → Option (Input × LispVal)
  | 0, _ => none
  | fuel + 1, input =>
    let t := stripWs input
    (match t with
     | c :: r =>
       if c = '\'' then (parseE fuel r).map fun p => (p.1, LispVal.Unevaluated p.2)
       else none
     | [] => none) <|>
    ((parse_number t).map fun p => (p.1, LispVal.Number p.2)) <|>
    ((parse_symbol t).map fun p => (p.1, LispVal.Symbol p.2)) <|>
    ((parse_string t).map fun p => (p.1, LispVal.String p.2)) <|>
    (match t with
     | c :: r =>
       if c = '(' then
         match many0 (parseE fuel) (r.length + 1) r with
         | some (r2, vs) =>
           (match r2 with
            | c2 :: r3 => if c2 = ')' then some (r3, LispVal.List vs) else none
            | [] => none)
         | none => none
       else none
     | [] => none)

/-- `parse_expression`: the expression dispatcher, with the fuel
instantiated at a sufficient value. -/
def parse_expression (input : Input) : Option (Input × LispVal) :=
  parseE (input.length + 1) input

/-- `parse_unevaluated`: `preceded(char('\''), map(parse_expression, Unevaluated))`. -/
def parse_unevaluated (input : Input) : Option (Input × LispVal) :=
  match input with
  | c :: r =>
    if c = '\'' then (parse_expression r).map fun p => (p.1, LispVal.Unevaluated p.2)
    else none
  | [] => none

/-- `parse_list`: `delimited(char('('), many0(parse_expression), char(')'))`. -/
def parse_list (input : Input) : Option (Input × List LispVal) :=
  match input with
  | c :: r =>
    if c = '(' then
      match many0 parse_expression (r.length + 1) r with
      | some (r2, vs) =>
        (match r2 with
         | c2 :: r3 => if c2 = ')' then some (r3, vs) else none
         | [] => none)
      | none => none
    else none
  | [] => none

/-- `parse`: `terminated(parse_expression, multispace0)` — one expression,
then trailing whitespace is consumed and discarded. -/
def parse (input : Input) : Option (Input × LispVal) :=
  (parse_expression input).map fun p => (stripWs p.1, p.2)

/-! ### Option `orElse` basics -/

theorem none_orElse_eq {α : Type} (f : Option α) : ((none : Option α) <|> f) = f := rfl

theorem some_orElse_eq {α : Type} (a : α) (f : Option α) :
    ((some a : Option α) <|> f) = some a := rfl

/-! ### Character-class facts -/

theorem toNat_of_ws {c : Char} (h : isWsC c = true) :
    c.toNat = 32 ∨ c.toNat = 9 ∨ c.toNat = 13 ∨ c.toNat = 10 := by
  simp only [isWsC, Bool.or_eq_true, beq_iff_eq] at h
  rcases h with ((h | h) | h) | h <;> subst h <;> simp

theorem toNat_of_digit {c : Char} (h : isDigitC c = true) :
    48 ≤ c.toNat ∧ c.toNat ≤ 57 := by
  simpa [isDigitC] using h

theorem toNat_of_alpha {c : Char} (h : isAlphaC c = true) :
    (65 ≤ c.toNat ∧ c.toNat ≤ 90) ∨ (97 ≤ c.toNat ∧ c.toNat ≤ 122) := by
  simpa [isAlphaC] using h

theorem toNat_of_op {c : Char} (h : isOpChar c = true) :
    c.toNat = 62 ∨ c.toNat = 60 ∨ c.toNat = 43 ∨ c.toNat = 45 ∨
    c.toNat = 42 ∨ c.toNat = 47 ∨ c.toNat = 37 ∨ c.toNat = 61 := by
  simp only [isOpChar, Bool.or_eq_true, beq_iff_eq] at h
  rcases h with ((((((h | h) | h) | h) | h) | h) | h) | h <;> subst h <;> simp

theorem toNat_of_ident {c : Char} (h : isIdentChar c = true) :
    (48 ≤ c.toNat ∧ c.toNat ≤ 57) ∨ (65 ≤ c.toNat ∧ c.toNat ≤ 90) ∨
    (97 ≤ c.toNat ∧ c.toNat ≤ 122) ∨ c.toNat = 95 := by
  simp only [isIdentChar, isAlnumC, Bool.or_eq_true, beq_iff_eq] at h
  rcases h with (h | h) | h
  · rcases toNat_of_alpha h with h | h <;> tauto
  · have := toNat_of_digit h; tauto
  · subst h; simp

/-- Two characters on which a Boolean character class disagrees differ. -/
theorem ne_of_pred {p : Char → Bool} {c d : Char} (h : p c = true) (hd : p d = false) :
    c ≠ d := by
  intro he; subst he; rw [h] at hd; exact Bool.noConfusion hd

theorem digit_not_ws {c : Char} (h : isDigitC c = true) : isWsC c = false := by
  cases hw : isWsC c
  · rfl
  · have := toNat_of_ws hw; have := toNat_of_digit h; omega

theorem alpha_not_ws {c : Char} (h : isAlphaC c = true) : isWsC c = false := by
  cases hw : isWsC c
  · rfl
  · have := toNat_of_ws hw; have := toNat_of_alpha h; omega

theorem op_not_ws {c : Char} (h : isOpChar c = true) : isWsC c = false := by
  cases hw : isWsC c
  · rfl
  · have := toNat_of_ws hw; have := toNat_of_op h; omega

theorem ident_not_ws {c : Char} (h : isIdentChar c = true) : isWsC c = false := by
  cases hw : isWsC c
  · rfl
  · have := toNat_of_ws hw; have := toNat_of_ident h; omega

theorem digit_not_op {c : Char} (h : isDigitC c = true) : isOpChar c = false := by
  cases ho : isOpChar c
  · rfl
  · have := toNat_of_op ho; have := toNat_of_digit h; omega

theorem digit_not_alpha {c : Char} (h : isDigitC c = true) : isAlphaC c = false := by
  cases ha : isAlphaC c
  · rfl
  · have := toNat_of_alpha ha; have := toNat_of_digit h; omega

theorem alpha_not_op {c : Char} (h : isAlphaC c = true) : isOpChar c = false := by
  cases ho : isOpChar c
  · rfl
  · have := toNat_of_op ho; have := toNat_of_alpha h; omega

theorem alpha_not_digit {c : Char} (h : isAlphaC c = true) : isDigitC c = false := by
  cases hd : isDigitC c
  · rfl
  · have := toNat_of_digit hd; have := toNat_of_alpha h; omega

theorem ident_not_op {c : Char} (h : isIdentChar c = true) : isOpChar c = false := by
  cases ho : isOpChar c
  · rfl
  · have := toNat_of_op ho; have := toNat_of_ident h; omega

theorem op_not_ident {c : Char} (h : isOpChar c = true) : isIdentChar c = false := by
  cases hi : isIdentChar c
  · rfl
  · have := toNat_of_op h; have := toNat_of_ident hi; omega

/-! ### `stripWs`, `takeWhile`/`dropWhile` and `tagStarts` facts -/

theorem stripWs_cons_of_not {c : Char} {r : Input} (h : isWsC c = false) :
    stripWs (c :: r) = c :: r := by
  simp [stripWs, List.dropWhile_cons, h]

theorem stripWs_append_ws {ws : List Char} (s : Input)
    (h : ∀ c ∈ ws, isWsC c = true) : stripWs (ws ++ s) = stripWs s := by
  induction ws with
  | nil => rfl
  | cons c cs ih =>
    have hc : isWsC c = true := h c (List.mem_cons_self c cs)
    simp only [List.cons_append, stripWs, List.dropWhile_cons, hc, if_true]
    exact ih fun d hd => h d (List.mem_cons_of_mem c hd)

theorem takeWhile_append_all {p : Char → Bool} :
    ∀ (s r : List Char), (∀ c ∈ s, p c = true) →
      (r = [] ∨ ∃ c cs, r = c :: cs ∧ p c = false) →
      (s ++ r).takeWhile p = s ∧ (s ++ r).dropWhile p = r := by
  intro s
  induction s with
  | nil =>
    intro r _ hr
    rcases hr with rfl | ⟨c, cs, rfl, hc⟩
    · exact ⟨rfl, rfl⟩
    · simp [List.takeWhile_cons, List.dropWhile_cons, hc]
  | cons a as ih =>
    intro r hall hr
    have ha : p a = true := hall a (List.mem_cons_self a as)
    have := ih r (fun c hc => hall c (List.mem_cons_of_mem a hc)) hr
    simp [List.takeWhile_cons, List.dropWhile_cons, ha, this.1, this.2]

theorem tagStarts_cons_false {t c : Char} {ts : List Char} {cs : Input}
    (h : (t == c) = false) : tagStarts (t :: ts) (c :: cs) = false := by
  simp [tagStarts, h]

theorem tagStarts_alpha_stop :
    ∀ (tag s r : List Char), (∀ c ∈ tag, isAlphaC c = true) →
      (r = [] ∨ ∃ cs, r = ' ' :: cs ∨ r = ')' :: cs) →
      tagStarts tag (s ++ r) = true → tagStarts tag s = true := by
  intro tag
  induction tag with
  | nil => intro s r _ _ _; rfl
  | cons t ts ih =>
    intro s r halpha hr h
    cases s with
    | nil =>
      exfalso
      rcases hr with rfl | ⟨cs, rfl | rfl⟩
      · simp [tagStarts] at h
      · simp only [List.nil_append, tagStarts, Bool.and_eq_true, beq_iff_eq] at h
        have := toNat_of_alpha (halpha t (List.mem_cons_self t ts))
        rw [h.1] at this; simp at this
      · simp only [List.nil_append, tagStarts, Bool.and_eq_true, beq_iff_eq] at h
        have := toNat_of_alpha (halpha t (List.mem_cons_self t ts))
        rw [h.1] at this; simp at this
    | cons a as =>
      simp only [List.cons_append, tagStarts, Bool.and_eq_true] at h ⊢
      exact ⟨h.1, ih as r (fun c hc => halpha c (List.mem_cons_of_mem t hc)) hr h.2⟩

/-! ### Fuel irrelevance

`parseE`'s fuel and `many0`'s fuel are irrelevant once they exceed the
input length: the recursion consumes at least one character per level
(for `many0` this is nom's `ErrorKind::Many0` check). -/

theorem many0_fuel_congr {α : Type} (p : Input → Option (Input × α)) :
    ∀ (n f g : Nat) (input : Input), input.length ≤ n →
      input.length < f → input.length < g →
      many0 p f input = many0 p g input := by
  intro n
  induction n with
  | zero =>
    intro f g input h1 h2 h3
    obtain ⟨f', rfl⟩ : ∃ f', f = f' + 1 := ⟨f - 1, by omega⟩
    obtain ⟨g', rfl⟩ : ∃ g', g = g' + 1 := ⟨g - 1, by omega⟩
    simp only [many0]
    cases hp : p input with
    | none => rfl
    | some rv =>
      obtain ⟨r, v⟩ := rv
      have : ¬ r.length < input.length := by omega
      simp [this]
  | succ n ih =>
    intro f g input h1 h2 h3
    obtain ⟨f', rfl⟩ : ∃ f', f = f' + 1 := ⟨f - 1, by omega⟩
    obtain ⟨g', rfl⟩ : ∃ g', g = g' + 1 := ⟨g - 1, by omega⟩
    simp only [many0]
    cases hp : p input with
    | none => rfl
    | some rv =>
      obtain ⟨r, v⟩ := rv
      by_cases hlt : r.length < input.length
      · simp only [hlt, if_true]
        rw [ih f' g' r (by omega) (by omega) (by omega)]
      · simp [hlt]

theorem many0_parser_congr {α : Type} :
    ∀ (f : Nat) (p q : Input → Option (Input × α)) (input : Input),
      (∀ s : Input, s.length ≤ input.length → p s = q s) →
      many0 p f input = many0 q f input := by
  intro f
  induction f with
  | zero => intro p q input _; rfl
  | succ f ih =>
    intro p q input hpq
    simp only [many0]
    rw [hpq input (Nat.le_refl _)]
    cases hq : q input with
    | none => rfl
    | some rv =>
      obtain ⟨r, v⟩ := rv
      by_cases hlt : r.length < input.length
      · simp only [hlt, if_true]
        rw [ih p q r (fun s hs => hpq s (by omega))]
      · simp [hlt]

theorem parseE_congr :
    ∀ (n f g : Nat) (input : Input), input.length ≤ n →
      input.length < f → input.length < g →
      parseE f input = parseE g input := by
  intro n
  induction n with
  | zero =>
    intro f g input h1 h2 h3
    obtain ⟨f', rfl⟩ : ∃ f', f = f' + 1 := ⟨f - 1, by omega⟩
    obtain ⟨g', rfl⟩ : ∃ g', g = g' + 1 := ⟨g - 1, by omega⟩
    have : input = [] := List.length_eq_zero.mp (by omega)
    subst this
    rfl
  | succ n ih =>
    intro f g input h1 h2 h3
    obtain ⟨f', rfl⟩ : ∃ f', f = f' + 1 := ⟨f - 1, by omega⟩
    obtain ⟨g', rfl⟩ : ∃ g', g = g' + 1 := ⟨g - 1, by omega⟩
    have ht : (stripWs input).length ≤ input.length :=
      (List.dropWhile_sublist isWsC).length_le
    simp only [parseE]
    cases htv : stripWs input with
    | nil => rfl
    | cons c r =>
      have hr : r.length < input.length := by
        have : (stripWs input).length = r.length + 1 := by rw [htv]; rfl
        omega
      have hquote : (parseE f' r).map (fun p => (p.1, LispVal.Unevaluated p.2)) =
          (parseE g' r).map (fun p => (p.1, LispVal.Unevaluated p.2)) := by
        rw [ih f' g' r (by omega) (by omega) (by omega)]
      have hlist : many0 (parseE f') (r.length + 1) r =
          many0 (parseE g') (r.length + 1) r := by
        apply many0_parser_congr
        intro s hs
        exact ih f' g' s (by omega) (by omega) (by omega)
      dsimp only
      rw [hquote, hlist]

/-- Unfolding equation for `parse_expression`: the source's dispatcher,
with each alternative expressed through its named parser.  This is the
literal shape of `parse_expression` in `parsing/mod.rs`: skip leading
whitespace, then `alt((parse_unevaluated, parse_number, parse_symbol,
parse_string, parse_list))`, first match wins. -/
theorem parse_expression_eq (input : Input) :
    parse_expression input =
      (parse_unevaluated (stripWs input) <|>
       ((parse_number (stripWs input)).map fun p => (p.1, LispVal.Number p.2)) <|>
       ((parse_symbol (stripWs input)).map fun p => (p.1, LispVal.Symbol p.2)) <|>
       ((parse_string (stripWs input)).map fun p => (p.1, LispVal.String p.2)) <|>
       ((parse_list (stripWs input)).map fun p => (p.1, LispVal.List p.2))) := by
  have ht : (stripWs input).length ≤ input.length :=
    (List.dropWhile_sublist isWsC).length_le
  simp only [parse_expression, parseE]
  cases htv : stripWs input with
  | nil => simp [parse_unevaluated, parse_list]
  | cons c r =>
    have hr : r.length < input.length := by
      have : (stripWs input).length = r.length + 1 := by rw [htv]; rfl
      omega
    have hquote : parseE (input.length + 1 - 1) r = parse_expression r := by
      simp only [parse_expression]
      exact parseE_congr input.length _ _ r (by omega) (by omega) (by omega)
    have hm : many0 (parseE (input.length + 1 - 1)) (r.length + 1) r =
        many0 parse_expression (r.length + 1) r := by
      apply many0_parser_congr
      intro s hs
      simp only [parse_expression]
      exact parseE_congr input.length _ _ s (by omega) (by omega) (by omega)
    simp only [Nat.add_sub_cancel] at hquote hm
    simp only [parse_unevaluated, parse_list, hquote, hm]
    by_cases hc : c = '\''
    · simp [hc]
    · simp only [hc, if_false]
      by_cases hcl : c = '('
      · simp only [hcl, if_true]
        cases hm0 : many0 parse_expression (r.length + 1) r with
        | none => simp
        | some rv =>
          obtain ⟨r2, vs⟩ := rv
          cases r2 with
          | nil => simp
          | cons c2 r3 =>
            by_cases hc2 : c2 = ')'
            · simp [hc2]
            · simp [hc2]
      · simp [hcl]

/-- Prepending whitespace to the input of `parse_expression` changes
nothing: the dispatcher consumes its own leading whitespace. -/
theorem parse_expression_ws_prepend (ws s : Input)
    (h : ∀ c ∈ ws, isWsC c = true) :
    parse_expression (ws ++ s) = parse_expression s := by
  rw [parse_expression_eq, parse_expression_eq, stripWs_append_ws s h]

/-! ### Failure of the individual alternatives on unsuitable heads -/

theorem parse_unevaluated_no_quote {c : Char} {r : Input} (h : c ≠ '\'') :
    parse_unevaluated (c :: r) = none := by
  simp [parse_unevaluated, h]

theorem parse_string_no_dquote {c : Char} {r : Input} (h : c ≠ '"') :
    parse_string (c :: r) = none := by
  simp [parse_string, h]

theorem parse_list_no_lparen {c : Char} {r : Input} (h : c ≠ '(') :
    parse_list (c :: r) = none := by
  simp [parse_list, h]

theorem parse_number_no_match {c : Char} {r : Input}
    (h1 : ('t' == c) = false) (h2 : ('f' == c) = false) (h3 : isDigitC c = false) :
    parse_number (c :: r) = none := by
  simp [parse_number, tagStarts_cons_false h1, tagStarts_cons_false h2,
    List.takeWhile_cons, h3]

theorem parse_symbol_no_match {c : Char} {r : Input}
    (h1 : isOpChar c = false) (h2 : isAlphaC c = false) (h3 : (c == '_') = false) :
    parse_symbol (c :: r) = none := by
  simp [parse_symbol, List.takeWhile_cons, h1, h2, h3]

/-- The dispatcher fails on an input whose first significant character is a
closing parenthesis — this is what terminates `many0(parse_expression)`
inside a list. -/
theorem parse_expression_rparen (r : Input) :
    parse_expression (')' :: r) = none := by
  rw [parse_expression_eq, stripWs_cons_of_not (by decide)]
  rw [parse_unevaluated_no_quote (by decide), parse_string_no_dquote (by decide),
    parse_list_no_lparen (by decide),
    parse_number_no_match (by decide) (by decide) (by decide),
    parse_symbol_no_match (by decide) (by decide) (by decide)]
  rfl

/-! ### Decimal digits: rendering and re-reading -/

/-- Big-endian digit accumulation, the way `str::parse` reads digits. -/
def beVal : List Nat → Nat → Nat
  | [], a => a
  | d :: ds, a => beVal ds (10 * a + d)

theorem digitChar_isDigit : ∀ d : Nat, isDigitC (digitChar d) = true := by
  intro d
  rcases d with _ | _ | _ | _ | _ | _ | _ | _ | _ | d <;> rfl

theorem digitChar_toNat : ∀ d : Nat, d < 10 → (digitChar d).toNat - 48 = d := by
  decide

theorem foldl_digitChar :
    ∀ (M : List Nat) (a : Nat), (∀ d ∈ M, d < 10) →
      (M.map digitChar).foldl (fun x c => 10 * x + (c.toNat - 48)) a = beVal M a := by
  intro M
  induction M with
  | nil => intro a _; rfl
  | cons d ds ih =>
    intro a hM
    have hd : d < 10 := hM d (List.mem_cons_self d ds)
    simp only [List.map_cons, List.foldl_cons, beVal]
    rw [digitChar_toNat d hd]
    exact ih (10 * a + d) fun e he => hM e (List.mem_cons_of_mem d he)

theorem beVal_eq_ofDigits :
    ∀ (M : List Nat) (a : Nat),
      beVal M a = a * 10 ^ M.length + Nat.ofDigits 10 M.reverse := by
  intro M
  induction M with
  | nil => intro a; simp [beVal, Nat.ofDigits]
  | cons d ds ih =>
    intro a
    simp only [beVal, ih, List.reverse_cons, List.length_cons]
    have happ : (Nat.ofDigits 10 (ds.reverse ++ [d]) : ℕ) =
        Nat.ofDigits 10 ds.reverse + 10 ^ ds.reverse.length * Nat.ofDigits 10 [d] := by
      exact_mod_cast Nat.ofDigits_append
    rw [happ]
    simp only [List.length_reverse, Nat.ofDigits]
    push_cast
    ring

theorem valOfDigits_natChars (n : Nat) : valOfDigits (natChars n) = n := by
  by_cases hn : n = 0
  · subst hn; rfl
  · simp only [natChars, hn, if_false, valOfDigits]
    have hlt : ∀ d ∈ (Nat.digits 10 n).reverse, d < 10 := by
      intro d hd
      exact Nat.digits_lt_base (by norm_num) (List.mem_reverse.mp hd)
    rw [foldl_digitChar _ 0 hlt, beVal_eq_ofDigits, List.reverse_reverse]
    simpa using Nat.ofDigits_digits 10 n

theorem natChars_all_digit (n : Nat) : ∀ c ∈ natChars n, isDigitC c = true := by
  by_cases hn : n = 0
  · subst hn; intro c hc; simp only [natChars, if_true] at hc
    simp only [List.mem_singleton] at hc; subst hc; rfl
  · intro c hc
    simp only [natChars, hn, if_false, List.mem_map] at hc
    obtain ⟨d, _, rfl⟩ := hc
    exact digitChar_isDigit d

theorem natChars_ne_nil (n : Nat) : natChars n ≠ [] := by
  by_cases hn : n = 0
  · subst hn; simp [natChars]
  · simp only [natChars, hn, if_false]
    intro h
    rw [List.map_eq_nil_iff, List.reverse_eq_nil_iff] at h
    exact hn (Nat.digits_eq_nil_iff_eq_zero.mp h)

/-! ### The renderable fragment of the value model

The round-trip property does not hold for every `LispVal` (see the
`Void`/`String`/negative-number counterexamples); it holds on the
fragment below: no `Void`, no `String`, numbers inside `[0, 2^63)`, and
symbols that are well-formed tokens of the symbol grammar not beginning
with the literal characters of `true`/`false`. -/

/-- A continuation after a rendered expression that cannot extend its last
token: the end of input, a space, or a closing parenthesis. -/
def sepOk : List Char → Bool
  | [] => true
  | c :: _ => c == ' ' || c == ')'

/-- The characters of an identifier after its head: alphanumeric or
underscore, with at most a single `?` allowed at the very end. -/
def isIdentTail : List Char → Bool
  | [] => true
  | c :: rest => if c == '?' then rest.isEmpty else isIdentChar c && isIdentTail rest

/-- A symbol payload that the symbol grammar itself would produce:
a nonempty operator run, or an identifier (letter/underscore head,
alphanumeric/underscore body, optional trailing `?`) that does not start
with the four letters `true` or the five letters `false`. -/
def goodSymbol (s : List Char) : Bool :=
  match s with
  | [] => false
  | c :: cs =>
    (isOpChar c && cs.all isOpChar) ||
    ((isAlphaC c || c == '_') && isIdentTail cs &&
     !tagStarts ['t', 'r', 'u', 'e'] (c :: cs) &&
     !tagStarts ['f', 'a', 'l', 's', 'e'] (c :: cs))

mutual

/-- The fragment of `LispVal` on which rendering is re-parsed exactly. -/
def Renderable : LispVal → Bool
  | .Symbol s => goodSymbol s
  | .String _ => false
  | .Number n => decide (0 ≤ n) && decide (n < 2 ^ 63)
  | .Unevaluated v => Renderable v
  | .Void => false
  | .List vs => RenderableList vs

/-- `Renderable` at every element of a list. -/
def RenderableList : List LispVal → Bool
  | [] => true
  | v :: vs => Renderable v && RenderableList vs

end

theorem RenderableList_mem :
    ∀ (vs : List LispVal), RenderableList vs = true → ∀ v ∈ vs, Renderable v = true := by
  intro vs
  induction vs with
  | nil => intro _ v hv; cases hv
  | cons w ws ih =>
    intro h v hv
    simp only [RenderableList, Bool.and_eq_true] at h
    rcases List.mem_cons.mp hv with rfl | hv
    · exact h.1
    · exact ih h.2 v hv

theorem sepOk_elim {r : Input} (h : sepOk r = true) :
    r = [] ∨ (∃ cs, r = ' ' :: cs) ∨ (∃ cs, r = ')' :: cs) := by
  cases r with
  | nil => exact Or.inl rfl
  | cons c cs =>
    simp only [sepOk, Bool.or_eq_true, beq_iff_eq] at h
    rcases h with rfl | rfl
    · exact Or.inr (Or.inl ⟨cs, rfl⟩)
    · exact Or.inr (Or.inr ⟨cs, rfl⟩)

theorem sepOk_head_fails {p : Char → Bool} {r : Input} (h : sepOk r = true)
    (h1 : p ' ' = false) (h2 : p ')' = false) :
    r = [] ∨ ∃ c cs, r = c :: cs ∧ p c = false := by
  rcases sepOk_elim h with rfl | ⟨cs, rfl⟩ | ⟨cs, rfl⟩
  · exact Or.inl rfl
  · exact Or.inr ⟨' ', cs, rfl, h1⟩
  · exact Or.inr ⟨')', cs, rfl, h2⟩

theorem identShape :
    ∀ l : List Char, isIdentTail l = true →
      (∀ c ∈ l, isIdentChar c = true) ∨
      (∃ b, l = b ++ ['?'] ∧ ∀ c ∈ b, isIdentChar c = true) := by
  intro l
  induction l with
  | nil => intro _; left; intro c hc; cases hc
  | cons c cs ih =>
    intro h
    simp only [isIdentTail] at h
    cases hq : c == '?' with
    | true =>
      rw [hq, if_pos rfl] at h
      have hc : c = '?' := beq_iff_eq.mp hq
      have hcs : cs = [] := by
        cases cs with
        | nil => rfl
        | cons d ds => exact Bool.noConfusion h
      subst hc; subst hcs
      exact Or.inr ⟨[], rfl, fun c hc => absurd hc (List.not_mem_nil c)⟩
    | false =>
      rw [hq, if_neg Bool.false_ne_true] at h
      simp only [Bool.and_eq_true] at h
      rcases ih h.2 with hall | ⟨b, rfl, hb⟩
      · left
        intro d hd
        rcases List.mem_cons.mp hd with rfl | hd
        · exact h.1
        · exact hall d hd
      · right
        refine ⟨c :: b, rfl, ?_⟩
        intro d hd
        rcases List.mem_cons.mp hd with rfl | hd
        · exact h.1
        · exact hb d hd

theorem render_ne_nil : ∀ v : LispVal, Renderable v = true → render v ≠ [] := by
  intro v hv
  cases v with
  | Symbol s =>
    cases s with
    | nil => simp [Renderable, goodSymbol] at hv
    | cons c cs => simp [render]
  | String s => simp [Renderable] at hv
  | Number n =>
    simp only [Renderable, Bool.and_eq_true, decide_eq_true_eq] at hv
    have : ¬ n < 0 := by omega
    simp only [render, intChars, this, if_false]
    exact natChars_ne_nil n.toNat
  | Unevaluated w => simp [render]
  | List vs => simp [render]
  | Void => simp [Renderable] at hv

/-! ### Re-reading rendered tokens -/

theorem parse_number_fails {input : Input}
    (h1 : tagStarts ['t', 'r', 'u', 'e'] input = false)
    (h2 : tagStarts ['f', 'a', 'l', 's', 'e'] input = false)
    (h3 : input.takeWhile isDigitC = []) :
    parse_number input = none := by
  simp [parse_number, h1, h2, h3]

/-- `parse_number` on a nonempty all-digit run followed by a token
separator: the run is consumed whole and converted, subject to the
`i64` overflow check. -/
theorem parse_number_digits (ds rest : Input) (hne : ds ≠ [])
    (hall : ∀ c ∈ ds, isDigitC c = true) (hrest : sepOk rest = true) :
    parse_number (ds ++ rest) =
      if valOfDigits ds ≤ I64_MAX then some (rest, (valOfDigits ds : Int))
      else none := by
  obtain ⟨c, cs, rfl⟩ : ∃ c cs, ds = c :: cs := by
    cases ds with
    | nil => exact absurd rfl hne
    | cons c cs => exact ⟨c, cs, rfl⟩
  have hc : isDigitC c = true := hall c (List.mem_cons_self c cs)
  have hct : ('t' == c) = false := by
    have : c ≠ 't' := ne_of_pred hc (by decide)
    simpa using this.symm
  have hcf : ('f' == c) = false := by
    have : c ≠ 'f' := ne_of_pred hc (by decide)
    simpa using this.symm
  have htw := takeWhile_append_all (c :: cs) rest hall
    (sepOk_head_fails hrest (by decide) (by decide))
  simp only [List.cons_append] at htw ⊢
  rw [parse_number, tagStarts_cons_false hct, tagStarts_cons_false hcf]
  simp only [Bool.false_eq_true, if_false]
  rw [show ((c :: (cs ++ rest)).takeWhile isDigitC) = c :: cs from htw.1,
    show ((c :: (cs ++ rest)).dropWhile isDigitC) = rest from htw.2]

/-- Re-reading a rendered nonnegative `i64`. -/
theorem rt_number (n : Int) (h0 : 0 ≤ n) (h1 : n < 2 ^ 63) (rest : Input)
    (hrest : sepOk rest = true) :
    parse_expression (intChars n ++ rest) = some (rest, LispVal.Number n) := by
  have hneg : ¬ n < 0 := by omega
  have hpow : (2 : Int) ^ 63 = 9223372036854775808 := by norm_num
  have hm : n.toNat ≤ I64_MAX := by
    have : I64_MAX = 9223372036854775807 := by norm_num [I64_MAX]
    omega
  obtain ⟨c, cs, hnc⟩ : ∃ c cs, natChars n.toNat = c :: cs := by
    cases h : natChars n.toNat with
    | nil => exact absurd h (natChars_ne_nil _)
    | cons c cs => exact ⟨c, cs, rfl⟩
  have hall : ∀ ch ∈ natChars n.toNat, isDigitC ch = true := natChars_all_digit _
  have hc : isDigitC c = true := by
    apply hall; rw [hnc]; exact List.mem_cons_self c cs
  have hnum : parse_number (natChars n.toNat ++ rest) = some (rest, n) := by
    rw [parse_number_digits _ rest (natChars_ne_nil _) hall hrest,
      valOfDigits_natChars, if_pos hm]
    congr 1
    rw [Int.toNat_of_nonneg h0]
  simp only [intChars, hneg, if_false]
  rw [parse_expression_eq, hnc]
  simp only [List.cons_append]
  rw [stripWs_cons_of_not (digit_not_ws hc),
    parse_unevaluated_no_quote (ne_of_pred hc (by decide)), none_orElse_eq]
  rw [show parse_number (c :: (cs ++ rest)) = some (rest, n) by
    simpa [hnc] using hnum]
  rfl

/-- Re-reading a rendered well-formed symbol token. -/
theorem rt_symbol (s : Input) (hs : goodSymbol s = true) (rest : Input)
    (hrest : sepOk rest = true) :
    parse_expression (s ++ rest) = some (rest, LispVal.Symbol s) := by
  obtain ⟨c, cs, rfl⟩ : ∃ c cs, s = c :: cs := by
    cases s with
    | nil => exact absurd hs (by simp [goodSymbol])
    | cons c cs => exact ⟨c, cs, rfl⟩
  simp only [goodSymbol, Bool.or_eq_true, Bool.and_eq_true] at hs
  rcases hs with ⟨hop, hops⟩ | ⟨⟨⟨hh, htail⟩, hnt⟩, hnf⟩
  · -- operator run
    have hall : ∀ ch ∈ c :: cs, isOpChar ch = true := by
      intro ch hch
      rcases List.mem_cons.mp hch with rfl | hch
      · exact hop
      · exact List.all_eq_true.mp hops ch hch
    have htw := takeWhile_append_all (c :: cs) rest hall
      (sepOk_head_fails hrest (by decide) (by decide))
    have hct : ('t' == c) = false := by
      have : c ≠ 't' := ne_of_pred hop (by decide)
      simpa using this.symm
    have hcf : ('f' == c) = false := by
      have : c ≠ 'f' := ne_of_pred hop (by decide)
      simpa using this.symm
    have hcd : isDigitC c = false := by
      cases hd : isDigitC c
      · rfl
      · have := toNat_of_digit hd; have := toNat_of_op hop; omega
    rw [parse_expression_eq]
    simp only [List.cons_append] at htw ⊢
    rw [stripWs_cons_of_not (op_not_ws hop),
      parse_unevaluated_no_quote (ne_of_pred hop (by decide)), none_orElse_eq,
      parse_number_no_match hct hcf hcd]
    rw [show parse_symbol (c :: (cs ++ rest)) = some (rest, c :: cs) by
      rw [parse_symbol]
      rw [show ((c :: (cs ++ rest)).takeWhile isOpChar) = c :: cs from htw.1,
        show ((c :: (cs ++ rest)).dropWhile isOpChar) = rest from htw.2]]
    rfl
  · -- identifier
    have hcid : isIdentChar c = true := by
      rcases hh with ha | hu
      · simp [isIdentChar, isAlnumC, ha]
      · simp [isIdentChar, beq_iff_eq.mp hu]
    have hws : isWsC c = false := ident_not_ws hcid
    have hq : c ≠ '\'' := ne_of_pred hcid (by decide)
    have hcop : isOpChar c = false := ident_not_op hcid
    have htag1 : tagStarts ['t', 'r', 'u', 'e'] ((c :: cs) ++ rest) = false := by
      cases ht : tagStarts ['t', 'r', 'u', 'e'] ((c :: cs) ++ rest)
      · rfl
      · exact absurd (tagStarts_alpha_stop _ (c :: cs) rest (by decide)
          (by rcases sepOk_elim hrest with h | ⟨cs', rfl⟩ | ⟨cs', rfl⟩
              · exact Or.inl h
              · exact Or.inr ⟨cs', Or.inl rfl⟩
              · exact Or.inr ⟨cs', Or.inr rfl⟩) ht) (by simpa using hnt)
    have htag2 : tagStarts ['f', 'a', 'l', 's', 'e'] ((c :: cs) ++ rest) = false := by
      cases ht : tagStarts ['f', 'a', 'l', 's', 'e'] ((c :: cs) ++ rest)
      · rfl
      · exact absurd (tagStarts_alpha_stop _ (c :: cs) rest (by decide)
          (by rcases sepOk_elim hrest with h | ⟨cs', rfl⟩ | ⟨cs', rfl⟩
              · exact Or.inl h
              · exact Or.inr ⟨cs', Or.inl rfl⟩
              · exact Or.inr ⟨cs', Or.inr rfl⟩) ht) (by simpa using hnf)
    have hcd : isDigitC c = false := by
      rcases hh with ha | hu
      · exact alpha_not_digit ha
      · rw [beq_iff_eq.mp hu]; rfl
    have horig : (isAlphaC c || c == '_') = true := by
      rcases hh with ha | hu
      · simp [ha]
      · simp [hu]
    have hsym : parse_symbol ((c :: cs) ++ rest) = some (rest, c :: cs) := by
      simp only [List.cons_append]
      rw [parse_symbol]
      rw [show ((c :: (cs ++ rest)).takeWhile isOpChar) = [] by
        simp [List.takeWhile_cons, hcop]]
      rw [if_pos horig]
      rcases identShape cs htail with hall | ⟨b, hbeq, hb⟩
      · have hallid : ∀ ch ∈ c :: cs, isIdentChar ch = true := by
          intro ch hch
          rcases List.mem_cons.mp hch with rfl | hch
          · exact hcid
          · exact hall ch hch
        have htw := takeWhile_append_all (c :: cs) rest hallid
          (sepOk_head_fails hrest (by decide) (by decide))
        simp only [List.cons_append] at htw
        rw [htw.1, htw.2]
        rcases sepOk_elim hrest with rfl | ⟨cs', rfl⟩ | ⟨cs', rfl⟩ <;> rfl
      · subst hbeq
        have hallid : ∀ ch ∈ c :: b, isIdentChar ch = true := by
          intro ch hch
          rcases List.mem_cons.mp hch with rfl | hch
          · exact hcid
          · exact hb ch hch
        have hassoc : c :: ((b ++ ['?']) ++ rest) = (c :: b) ++ ('?' :: rest) := by
          simp
        rw [hassoc]
        have htw := takeWhile_append_all (c :: b) ('?' :: rest) hallid
          (Or.inr ⟨'?', rest, rfl, by decide⟩)
        simp only [List.cons_append] at htw ⊢
        rw [htw.1, htw.2]
        simp
    have htdig : (c :: (cs ++ rest)).takeWhile isDigitC = [] := by
      simp [List.takeWhile_cons, hcd]
    rw [parse_expression_eq]
    simp only [List.cons_append] at htag1 htag2 hsym ⊢
    rw [stripWs_cons_of_not hws,
      parse_unevaluated_no_quote hq, none_orElse_eq,
      parse_number_fails htag1 htag2 htdig, hsym]
    rfl

/-! ### Re-reading a rendered list body -/

theorem many0_renderJoin :
    ∀ (vs : List LispVal) (pre : List Char),
      (pre = [] ∨ (pre = [' '] ∧ vs ≠ [])) →
      (∀ v ∈ vs, ∀ r : Input, sepOk r = true →
        parse_expression (render v ++ r) = some (r, v)) →
      (∀ v ∈ vs, render v ≠ []) →
      ∀ (rest : Input) (fuel : Nat),
        (pre ++ (renderJoin vs ++ ')' :: rest)).length < fuel →
        many0 parse_expression fuel (pre ++ (renderJoin vs ++ ')' :: rest)) =
          some (')' :: rest, vs) := by
  intro vs
  induction vs with
  | nil =>
    intro pre hpre _ _ rest fuel hfuel
    rcases hpre with rfl | ⟨_, hne⟩
    · obtain ⟨fl, rfl⟩ : ∃ fl, fuel = fl + 1 := ⟨fuel - 1, by omega⟩
      simp only [renderJoin, List.nil_append]
      simp only [many0, parse_expression_rparen]
    · exact absurd rfl hne
  | cons v vs' ih =>
    intro pre hpre hRT hne rest fuel hfuel
    have hpw : ∀ c ∈ pre, isWsC c = true := by
      rcases hpre with rfl | ⟨rfl, _⟩
      · intro c hc; cases hc
      · intro c hc; simp only [List.mem_singleton] at hc; subst hc; rfl
    have hrtv := hRT v (List.mem_cons_self v vs')
    have hnev : render v ≠ [] := hne v (List.mem_cons_self v vs')
    have hlenv : 1 ≤ (render v).length := List.length_pos.mpr hnev
    obtain ⟨fl, rfl⟩ : ∃ fl, fuel = fl + 1 := ⟨fuel - 1, by omega⟩
    cases vs' with
    | nil =>
      have hrj : renderJoin [v] = render v := rfl
      have hin : pre ++ (renderJoin [v] ++ ')' :: rest) =
          pre ++ (render v ++ ')' :: rest) := by rw [hrj]
      rw [hin] at hfuel ⊢
      have hp : parse_expression (pre ++ (render v ++ ')' :: rest)) =
          some (')' :: rest, v) := by
        rw [parse_expression_ws_prepend pre _ hpw]
        exact hrtv (')' :: rest) rfl
      simp only [many0, hp]
      have hlen : (')' :: rest).length < (pre ++ (render v ++ ')' :: rest)).length := by
        simp only [List.length_append, List.length_cons]
        omega
      rw [if_pos hlen]
      obtain ⟨fl2, rfl⟩ : ∃ fl2, fl = fl2 + 1 := by
        refine ⟨fl - 1, ?_⟩
        simp only [List.length_append, List.length_cons] at hfuel
        omega
      simp only [many0, parse_expression_rparen]
    | cons w ws =>
      have hrj : renderJoin (v :: w :: ws) = render v ++ ' ' :: renderJoin (w :: ws) :=
        rfl
      have hin : pre ++ (renderJoin (v :: w :: ws) ++ ')' :: rest) =
          pre ++ (render v ++ ([' '] ++ (renderJoin (w :: ws) ++ ')' :: rest))) := by
        rw [hrj]; simp
      rw [hin] at hfuel ⊢
      have hp : parse_expression
          (pre ++ (render v ++ ([' '] ++ (renderJoin (w :: ws) ++ ')' :: rest)))) =
          some ([' '] ++ (renderJoin (w :: ws) ++ ')' :: rest), v) := by
        rw [parse_expression_ws_prepend pre _ hpw]
        exact hrtv ([' '] ++ (renderJoin (w :: ws) ++ ')' :: rest)) rfl
      simp only [many0, hp]
      have hlen : ([' '] ++ (renderJoin (w :: ws) ++ ')' :: rest)).length <
          (pre ++ (render v ++ ([' '] ++ (renderJoin (w :: ws) ++ ')' :: rest)))).length := by
        simp only [List.length_append, List.length_cons]
        omega
      rw [if_pos hlen]
      have hih := ih [' '] (Or.inr ⟨rfl, by simp⟩)
        (fun u hu r hr => hRT u (List.mem_cons_of_mem v hu) r hr)
        (fun u hu => hne u (List.mem_cons_of_mem v hu))
        rest fl
        (by simp only [List.length_append, List.length_cons] at hfuel ⊢; omega)
      rw [hih]

/-- The central round-trip lemma: a renderable value, rendered and placed
before a valid token separator, is re-parsed exactly. -/
theorem render_reparse :
    ∀ v : LispVal, Renderable v = true →
      ∀ rest : Input, sepOk rest = true →
        parse_expression (render v ++ rest) = some (rest, v) := by
  suffices H : ∀ (N : Nat) (v : LispVal), sizeOf v < N → Renderable v = true →
      ∀ rest : Input, sepOk rest = true →
        parse_expression (render v ++ rest) = some (rest, v) by
    intro v
    exact H (sizeOf v + 1) v (Nat.lt_succ_self _)
  intro N
  induction N with
  | zero => intro v hsz; omega
  | succ N ih =>
    intro v hsz hv rest hrest
    cases v with
    | Symbol s =>
      have : goodSymbol s = true := by simpa [Renderable] using hv
      exact rt_symbol s this rest hrest
    | Number n =>
      have hn : 0 ≤ n ∧ n < 2 ^ 63 := by
        simpa [Renderable] using hv
      exact rt_number n hn.1 hn.2 rest hrest
    | String s => simp [Renderable] at hv
    | Void => simp [Renderable] at hv
    | Unevaluated w =>
      have hw : Renderable w = true := by simpa [Renderable] using hv
      have hszw : sizeOf w < N := by
        have : sizeOf (LispVal.Unevaluated w) = 1 + sizeOf w := by
          simp [LispVal.Unevaluated.sizeOf_spec]
        omega
      have hsub := ih w hszw hw rest hrest
      show parse_expression (('\'' :: render w) ++ rest) = _
      rw [parse_expression_eq]
      simp only [List.cons_append]
      rw [stripWs_cons_of_not (by decide)]
      rw [show parse_unevaluated ('\'' :: (render w ++ rest)) =
          some (rest, LispVal.Unevaluated w) by
        simp [parse_unevaluated, hsub]]
      rfl
    | List vs =>
      have hvs : RenderableList vs = true := by simpa [Renderable] using hv
      have hmem : ∀ w ∈ vs, Renderable w = true := RenderableList_mem vs hvs
      have hszl : sizeOf (LispVal.List vs) ≤ N := by omega
      have helem : ∀ w ∈ vs, ∀ r : Input, sepOk r = true →
          parse_expression (render w ++ r) = some (r, w) := by
        intro w hw r hr
        have h1 : sizeOf w < sizeOf vs := List.sizeOf_lt_of_mem hw
        have h2 : sizeOf (LispVal.List vs) = 1 + sizeOf vs := by
          simp [LispVal.List.sizeOf_spec]
        exact ih w (by omega) (hmem w hw) r hr
      have hne : ∀ w ∈ vs, render w ≠ [] := fun w hw =>
        render_ne_nil w (hmem w hw)
      show parse_expression (('(' :: renderJoin vs ++ [')']) ++ rest) = _
      have hin : ('(' :: renderJoin vs ++ [')']) ++ rest =
          '(' :: (renderJoin vs ++ ')' :: rest) := by simp
      rw [hin, parse_expression_eq, stripWs_cons_of_not (by decide)]
      rw [parse_unevaluated_no_quote (by decide), none_orElse_eq]
      rw [parse_number_fails (tagStarts_cons_false (by decide))
        (tagStarts_cons_false (by decide))
        (by simp [List.takeWhile_cons, (by decide : isDigitC '(' = false)])]
      rw [parse_symbol_no_match (by decide) (by decide) (by decide)]
      rw [parse_string_no_dquote (by decide)]
      rw [show parse_list ('(' :: (renderJoin vs ++ ')' :: rest)) =
          some (rest, vs) by
        rw [parse_list, if_pos rfl]
        rw [show (renderJoin vs ++ ')' :: rest) =
            [] ++ (renderJoin vs ++ ')' :: rest) from (List.nil_append _).symm]
        rw [many0_renderJoin vs [] (Or.inl rfl) helem hne rest _
          (Nat.lt_succ_self _)]
        rfl]
      rfl

/-! ## The claims -/

/-- C1, counterexample: the claim as stated is false.  `()` parses to the
empty list, but `( )` — the whitespace insertion the claim itself gives as
an example — fails to parse entirely: `many0(parse_expression)` backtracks
and leaves the space unconsumed, and `char(')')` then fails on it. -/
theorem c1_whitespace_counterexample :
    parse "()".toList = some ([], LispVal.List []) ∧ parse "( )".toList = none :=
  ⟨rfl, rfl⟩

/-- C1 (amended): whitespace runs inserted or removed immediately before
the start of an expression never change the parse result, because every
expression consumes its own leading whitespace; but whitespace is not
skipped before a closing parenthesis, so `()` parses to the empty list
while `( )` fails to parse. -/
theorem c1_whitespace_amended :
    (∀ ws s : Input, (∀ c ∈ ws, isWsC c = true) → parse (ws ++ s) = parse s) ∧
    parse "()".toList = some ([], LispVal.List []) ∧
    parse "( )".toList = none := by
  refine ⟨?_, rfl, rfl⟩
  intro ws s h
  simp only [parse, parse_expression_ws_prepend ws s h]

/-- C1 witness: the amended invariance applied at a concrete input. -/
theorem c1_whitespace_amended_witness :
    parse ("  ".toList ++ "42".toList) = parse "42".toList :=
  c1_whitespace_amended.1 "  ".toList "42".toList (by decide)

/-- C2, counterexample: the claim explicitly includes values with `Void`
nested inside lists, and for those it is false: `List([Void])` renders as
`()` (the element renders as nothing), which re-parses to the empty list
`List([])`, not to `List([Void])`. -/
theorem c2_roundtrip_counterexample :
    render (LispVal.List [LispVal.Void]) = "()".toList ∧
    parse (render (LispVal.List [LispVal.Void])) = some ([], LispVal.List []) ∧
    LispVal.List [] ≠ LispVal.List [LispVal.Void] := by
  refine ⟨rfl, rfl, ?_⟩
  intro h
  injection h with h2
  exact List.noConfusion h2

/-- C2 (amended): rendering followed by parsing is the identity on the
renderable fragment of the value model: values containing no `Void` and no
`String` anywhere, with every number in `[0, 2^63)` and every symbol a
well-formed token of the symbol grammar (a nonempty operator run, or an
identifier with an optional trailing `?`) not beginning with the literal
characters `true`/`false`.  On this fragment parsing the rendered text
returns exactly the value with empty remainder. -/
theorem c2_roundtrip_amended (v : LispVal) (hv : Renderable v = true) :
    parse (render v) = some ([], v) := by
  have h := render_reparse v hv [] rfl
  rw [List.append_nil] at h
  simp [parse, h, stripWs]

/-- C2 witness: the amended round trip at a concrete renderable value. -/
theorem c2_roundtrip_amended_witness :
    Renderable (LispVal.List [LispVal.Symbol ['+'], LispVal.Number 1,
      LispVal.Unevaluated (LispVal.List [])]) = true ∧
    parse (render (LispVal.List [LispVal.Symbol ['+'], LispVal.Number 1,
      LispVal.Unevaluated (LispVal.List [])])) =
      some ([], LispVal.List [LispVal.Symbol ['+'], LispVal.Number 1,
        LispVal.Unevaluated (LispVal.List [])]) :=
  ⟨by decide, c2_roundtrip_amended _ (by decide)⟩

/-- C3: an all-digit input whose value exceeds the signed 64-bit range is
rejected by the number alternative as a plain non-match (`map_res`
failure), no other dispatcher alternative matches it, and the whole
expression parse (and the top-level parse) fails. -/
theorem c3_overflow (ds : Input) (hne : ds ≠ [])
    (hall : ∀ c ∈ ds, isDigitC c = true)
    (hover : I64_MAX < valOfDigits ds) :
    parse_number ds = none ∧
    parse_symbol ds = none ∧
    parse_string ds = none ∧
    parse_unevaluated ds = none ∧
    parse_list ds = none ∧
    parse_expression ds = none ∧
    parse ds = none := by
  obtain ⟨c, cs, rfl⟩ : ∃ c cs, ds = c :: cs := by
    cases ds with
    | nil => exact absurd rfl hne
    | cons c cs => exact ⟨c, cs, rfl⟩
  have hc : isDigitC c = true := hall c (List.mem_cons_self c cs)
  have hnum : parse_number (c :: cs) = none := by
    have h := parse_number_digits (c :: cs) [] hne hall rfl
    rw [List.append_nil] at h
    rw [h, if_neg (by omega)]
  have hsym : parse_symbol (c :: cs) = none :=
    parse_symbol_no_match (digit_not_op hc) (digit_not_alpha hc)
      (by simpa using (ne_of_pred hc (by decide) : c ≠ '_'))
  have hstr : parse_string (c :: cs) = none :=
    parse_string_no_dquote (ne_of_pred hc (by decide))
  have hun : parse_unevaluated (c :: cs) = none :=
    parse_unevaluated_no_quote (ne_of_pred hc (by decide))
  have hlist : parse_list (c :: cs) = none :=
    parse_list_no_lparen (ne_of_pred hc (by decide))
  have hexp : parse_expression (c :: cs) = none := by
    rw [parse_expression_eq, stripWs_cons_of_not (digit_not_ws hc),
      hun, hnum, hsym, hstr, hlist]
    rfl
  exact ⟨hnum, hsym, hstr, hun, hlist, hexp, by simp [parse, hexp]⟩

/-- C3 witness: the overflow failure at the concrete input
`"99999999999999999999"`. -/
theorem c3_overflow_witness : parse "99999999999999999999".toList = none :=
  (c3_overflow "99999999999999999999".toList (by decide) (by decide)
    (by decide)).2.2.2.2.2.2

/-- C4: the expression dispatcher skips leading whitespace and then tries
the alternatives in the fixed order Quote, Number, Symbol, String, List,
returning the first match; consequently `true` and `false` parse as
`Number 1` and `Number 0` (never as symbols), and when every alternative
fails on the stripped input the expression parse fails there. -/
theorem c4_dispatcher_order :
    (∀ input : Input,
      parse_expression input =
        (parse_unevaluated (stripWs input) <|>
         ((parse_number (stripWs input)).map fun p => (p.1, LispVal.Number p.2)) <|>
         ((parse_symbol (stripWs input)).map fun p => (p.1, LispVal.Symbol p.2)) <|>
         ((parse_string (stripWs input)).map fun p => (p.1, LispVal.String p.2)) <|>
         ((parse_list (stripWs input)).map fun p => (p.1, LispVal.List p.2)))) ∧
    parse "true".toList = some ([], LispVal.Number 1) ∧
    parse "false".toList = some ([], LispVal.Number 0) ∧
    (∀ input : Input,
      parse_unevaluated (stripWs input) = none →
      parse_number (stripWs input) = none →
      parse_symbol (stripWs input) = none →
      parse_string (stripWs input) = none →
      parse_list (stripWs input) = none →
      parse_expression input = none) := by
  refine ⟨parse_expression_eq, rfl, rfl, ?_⟩
  intro input h1 h2 h3 h4 h5
  rw [parse_expression_eq, h1, h2, h3, h4, h5]
  rfl

/-- C4 witness: the no-alternative-matches clause at the concrete input
`","`. -/
theorem c4_dispatcher_order_witness : parse_expression [','] = none :=
  c4_dispatcher_order.2.2.2 [','] rfl rfl rfl rfl rfl

/-- C5: the six literal examples parse exactly as the specification
states, each with empty remainder. -/
theorem c5_literals :
    parse "42".toList = some ([], LispVal.Number 42) ∧
    parse "true".toList = some ([], LispVal.Number 1) ∧
    parse "false".toList = some ([], LispVal.Number 0) ∧
    parse "()".toList = some ([], LispVal.List []) ∧
    parse "(+ 1 2)".toList =
      some ([], LispVal.List [LispVal.Symbol ['+'], LispVal.Number 1,
        LispVal.Number 2]) ∧
    parse "foo?".toList = some ([], LispVal.Symbol "foo?".toList) :=
  ⟨rfl, rfl, rfl, rfl, rfl, rfl⟩

/-- C6: each accessor returns its payload exactly when the value is the
corresponding variant and `none` otherwise, without raising; none of them
unwraps `Unevaluated`. -/
theorem c6_accessors :
    (∀ (v : LispVal) (n : Int), as_number v = some n ↔ v = LispVal.Number n) ∧
    (∀ (v : LispVal) (s : List Char), as_string v = some s ↔ v = LispVal.String s) ∧
    (∀ (v : LispVal) (l : List LispVal), as_list v = some l ↔ v = LispVal.List l) ∧
    (∀ v : LispVal, (∀ n, v ≠ LispVal.Number n) → as_number v = none) ∧
    (∀ v : LispVal, (∀ s, v ≠ LispVal.String s) → as_string v = none) ∧
    (∀ v : LispVal, (∀ l, v ≠ LispVal.List l) → as_list v = none) ∧
    (∀ v : LispVal, as_number (LispVal.Unevaluated v) = none ∧
      as_string (LispVal.Unevaluated v) = none ∧
      as_list (LispVal.Unevaluated v) = none) := by
  refine ⟨?_, ?_, ?_, ?_, ?_, ?_, fun v => ⟨rfl, rfl, rfl⟩⟩
  · intro v n; cases v <;> simp [as_number]
  · intro v s; cases v <;> simp [as_string]
  · intro v l; cases v <;> simp [as_list]
  · intro v h
    cases v with
    | Number n => exact absurd rfl (h n)
    | Symbol s => rfl
    | String s => rfl
    | List l => rfl
    | Unevaluated w => rfl
    | Void => rfl
  · intro v h
    cases v with
    | String s => exact absurd rfl (h s)
    | Symbol s => rfl
    | Number n => rfl
    | List l => rfl
    | Unevaluated w => rfl
    | Void => rfl
  · intro v h
    cases v with
    | List l => exact absurd rfl (h l)
    | Symbol s => rfl
    | Number n => rfl
    | String s => rfl
    | Unevaluated w => rfl
    | Void => rfl

/-- C6 witness: the accessor contract at concrete values, including the
non-unwrapping of `Unevaluated`. -/
theorem c6_accessors_witness :
    as_number (LispVal.Number 5) = some 5 ∧
    as_number (LispVal.Symbol ['a']) = none ∧
    as_number (LispVal.Unevaluated (LispVal.Number 5)) = none :=
  ⟨(c6_accessors.1 (LispVal.Number 5) 5).mpr rfl,
   c6_accessors.2.2.2.1 (LispVal.Symbol ['a']) (fun _ h => LispVal.noConfusion h),
   (c6_accessors.2.2.2.2.2.2 (LispVal.Number 5)).1⟩

/-- C7: quoting is invisible to type reflection: `to_type` of an
`Unevaluated` wrapper equals `to_type` of its child, at any nesting
depth (the child is arbitrary, so nested wrappers unwind one by one). -/
theorem c7_type_transparency (v : LispVal) :
    to_type (LispVal.Unevaluated v) = to_type v := rfl

/-- C8 (implicit): the boolean alternatives are bare `tag` matches with no
word-boundary check, so an input beginning with `true` (resp. `false`)
followed by a further identifier character parses as `Number 1`
(resp. `Number 0`) with the identifier tail as remainder, not as a symbol
of the whole identifier. -/
theorem c8_bool_literal_capture (c : Char) (rest : Input) (h : isIdentChar c = true) :
    parse ('t' :: 'r' :: 'u' :: 'e' :: c :: rest) =
      some (c :: rest, LispVal.Number 1) ∧
    parse ('f' :: 'a' :: 'l' :: 's' :: 'e' :: c :: rest) =
      some (c :: rest, LispVal.Number 0) := by
  have hws : isWsC c = false := ident_not_ws h
  constructor
  · have hexp : parse_expression ('t' :: 'r' :: 'u' :: 'e' :: c :: rest) =
        some (c :: rest, LispVal.Number 1) := by
      rw [parse_expression_eq, stripWs_cons_of_not (by decide),
        parse_unevaluated_no_quote (by decide), none_orElse_eq,
        show parse_number ('t' :: 'r' :: 'u' :: 'e' :: c :: rest) =
          some (c :: rest, 1) from rfl]
      rfl
    rw [parse, hexp]
    simp [stripWs_cons_of_not hws]
  · have hexp : parse_expression ('f' :: 'a' :: 'l' :: 's' :: 'e' :: c :: rest) =
        some (c :: rest, LispVal.Number 0) := by
      rw [parse_expression_eq, stripWs_cons_of_not (by decide),
        parse_unevaluated_no_quote (by decide), none_orElse_eq,
        show parse_number ('f' :: 'a' :: 'l' :: 's' :: 'e' :: c :: rest) =
          some (c :: rest, 0) from rfl]
      rfl
    rw [parse, hexp]
    simp [stripWs_cons_of_not hws]

/-- C8 witness: the prefix capture at the concrete inputs `truex` and
`falsey`. -/
theorem c8_bool_literal_capture_witness :
    parse "truex".toList = some (['x'], LispVal.Number 1) ∧
    parse "falsey".toList = some (['y'], LispVal.Number 0) :=
  ⟨(c8_bool_literal_capture 'x' [] (by decide)).1,
   (c8_bool_literal_capture 'y' [] (by decide)).2⟩

/-- C9 (implicit): the quote marker need not be adjacent to the quoted
expression: whatever whitespace follows the apostrophe is consumed by the
inner expression parser, so `'` + whitespace + `e` parses to
`Unevaluated` of whatever `e` parses to, with the same remainder. -/
theorem c9_quote_whitespace (ws e r : Input) (v : LispVal)
    (hws : ∀ c ∈ ws, isWsC c = true)
    (he : parse_expression e = some (r, v)) :
    parse_expression ('\'' :: (ws ++ e)) = some (r, LispVal.Unevaluated v) := by
  rw [parse_expression_eq, stripWs_cons_of_not (by decide),
    show parse_unevaluated ('\'' :: (ws ++ e)) = some (r, LispVal.Unevaluated v) by
      simp [parse_unevaluated, parse_expression_ws_prepend ws e hws, he]]
  rfl

/-- C9 witness: a quote separated from its expression by a space. -/
theorem c9_quote_whitespace_witness :
    parse_expression ('\'' :: (" ".toList ++ "x".toList)) =
      some ([], LispVal.Unevaluated (LispVal.Symbol ['x'])) :=
  c9_quote_whitespace " ".toList "x".toList [] (LispVal.Symbol ['x'])
    (by decide) rfl

/-- C10 (implicit): `to_type` only ever produces the five tags `Symbol`,
`String`, `List`, `Number`, `Void`; the `Any` member of the `LispType`
enumeration is unreachable from `to_type`. -/
theorem c10_any_unreachable :
    ∀ v : LispVal,
      to_type v = LispType.Symbol ∨ to_type v = LispType.String ∨
      to_type v = LispType.List ∨ to_type v = LispType.Number ∨
      to_type v = LispType.Void
  | .Symbol _ => Or.inl rfl
  | .String _ => Or.inr (Or.inl rfl)
  | .List _ => Or.inr (Or.inr (Or.inl rfl))
  | .Number _ => Or.inr (Or.inr (Or.inr (Or.inl rfl)))
  | .Void => Or.inr (Or.inr (Or.inr (Or.inr rfl)))
  | .Unevaluated w => c10_any_unreachable w

end FlowLang
